import Mathlib

/-!
Shallow embedding of the opine floating-point pack/unpack core
(src/include/opine/core/format.hpp, src/include/opine/core/unpacked.hpp,
src/include/opine/operations/pack_unpack.hpp,
src/include/opine/policies/rounding.hpp).

Machine integers are modelled as `Nat` with explicit `% 2^w` at every place
where the C++ `_BitInt` exact-width types (the default `ExactWidth` type
selection policy) truncate: a `static_cast` to a narrower type, and a shift
performed inside the storage-width type.  Values that provably fit in their
C++ type are carried as plain `Nat`.
-/

namespace Opine

/-- Field geometry and flags of `FormatDescriptor` (format.hpp).  The C++
template parameters are compile-time `int`s; a descriptor value here carries
the already-accepted geometry as `Nat`s together with the resolved exponent
bias (an `Int`, since the C++ constant is an `int`). -/
structure FormatDescriptor where
  sign_bits : Nat
  sign_offset : Nat
  exp_bits : Nat
  exp_offset : Nat
  mant_bits : Nat
  mant_offset : Nat
  total_bits : Nat
  has_implicit_bit : Bool
  exp_bias : Int
  deriving Repr, DecidableEq

/-- Auto-derived exponent bias `(1 << (ExpBits - 1)) - 1` (format.hpp line 33). -/
def autoBias (exp_bits : Nat) : Int :=
  2 ^ (exp_bits - 1) - 1

/-- Bias resolution: the template default `-1` means auto (format.hpp lines 32-33). -/
def resolveBias (exp_bits : Nat) (bias : Int) : Int :=
  if bias = -1 then autoBias exp_bits else bias

/-- The conjunction of the seven `static_assert`s of `FormatDescriptor`
(format.hpp lines 51-61). -/
def FormatDescriptor.valid (f : FormatDescriptor) : Prop :=
  0 < f.sign_bits ∧ 0 < f.exp_bits ∧ 0 < f.mant_bits ∧
  f.sign_bits + f.exp_bits + f.mant_bits ≤ f.total_bits ∧
  f.sign_offset + f.sign_bits ≤ f.total_bits ∧
  f.exp_offset + f.exp_bits ≤ f.total_bits ∧
  f.mant_offset + f.mant_bits ≤ f.total_bits

instance (f : FormatDescriptor) : Decidable f.valid := by
  unfold FormatDescriptor.valid
  infer_instance

/-- The `is_standard_layout()` predicate of `FormatDescriptor`
(format.hpp lines 44-48). -/
def FormatDescriptor.is_standard_layout (f : FormatDescriptor) : Prop :=
  f.sign_bits = 1 ∧ f.sign_offset = f.exp_offset + f.exp_bits ∧
  f.exp_offset = f.mant_offset + f.mant_bits ∧ f.mant_offset = 0 ∧
  f.total_bits = f.sign_bits + f.exp_bits + f.mant_bits

instance (f : FormatDescriptor) : Decidable f.is_standard_layout := by
  unfold FormatDescriptor.is_standard_layout
  infer_instance

/-- The `IEEE_Format<ExpBits, MantBits>` alias (format.hpp lines 66-77):
sign 1 bit at the MSB, exponent below it, mantissa at the LSB, implicit bit,
auto bias. -/
def IEEE_Format (exp_bits mant_bits : Nat) : FormatDescriptor :=
  { sign_bits := 1
    sign_offset := exp_bits + mant_bits
    exp_bits := exp_bits
    exp_offset := mant_bits
    mant_bits := mant_bits
    mant_offset := 0
    total_bits := 1 + exp_bits + mant_bits
    has_implicit_bit := true
    exp_bias := resolveBias exp_bits (-1) }

/-- The `fp8_e5m2` format (format.hpp line 82). -/
def fp8_e5m2 : FormatDescriptor := IEEE_Format 5 2

/-- The `fp8_e4m3` format (format.hpp line 83). -/
def fp8_e4m3 : FormatDescriptor := IEEE_Format 4 3

/-- Descriptor construction as an explicit gate over the raw `int` template
arguments: `some` exactly when all seven `static_assert`s of format.hpp
(lines 51-61) hold, `none` otherwise -- a rejected instantiation does not
compile, so no descriptor value exists for it. -/
def mkFormatDescriptor (sb so eb eo mb mo tb : Int) (impl : Bool)
    (bias : Int) : Option FormatDescriptor :=
  if 0 < sb ∧ 0 < eb ∧ 0 < mb ∧ sb + eb + mb ≤ tb ∧
     so + sb ≤ tb ∧ eo + eb ≤ tb ∧ mo + mb ≤ tb then
    some { sign_bits := sb.toNat
           sign_offset := so.toNat
           exp_bits := eb.toNat
           exp_offset := eo.toNat
           mant_bits := mb.toNat
           mant_offset := mo.toNat
           total_bits := tb.toNat
           has_implicit_bit := impl
           exp_bias := resolveBias eb.toNat bias }
  else none

/-- A rounding policy: its `guard_bits` constant and its `round_mantissa`
function (rounding.hpp).  `round_mantissa` takes the wide mantissa and the
sign and returns the value of the C++ `mantissa_storage_type` result. -/
structure RoundingPolicy where
  guard_bits : Nat
  round_mantissa : FormatDescriptor → Nat → Bool → Nat

/-- `TowardZero` (rounding.hpp lines 16-40): 0 guard bits; mask off the
implicit bit when the format has one, otherwise return the wide mantissa;
the final `% 2^mant_bits` is the `static_cast` to `mantissa_storage_type`,
an exact-width type of `mant_bits` bits. -/
def TowardZero : RoundingPolicy where
  guard_bits := 0
  round_mantissa := fun f wide _neg =>
    if f.has_implicit_bit then
      (wide &&& (2 ^ f.mant_bits - 1)) % 2 ^ f.mant_bits
    else
      wide % 2 ^ f.mant_bits

/-- `ToNearestTiesToEven` (rounding.hpp lines 62-171): 3 guard bits (GRS);
shift them away, mask the implicit bit when present, read GRS from the low
3 bits of the wide input, increment on GRS > 4 or on a tie with an odd
candidate; the final `% 2^mant_bits` is the `static_cast` to the exact-width
`mantissa_storage_type`, which is where an overflowed candidate wraps. -/
def ToNearestTiesToEven : RoundingPolicy where
  guard_bits := 3
  round_mantissa := fun f wide _neg =>
    let stored0 := wide >>> 3
    let stored1 :=
      if f.has_implicit_bit then stored0 &&& (2 ^ f.mant_bits - 1) else stored0
    let grs := wide &&& 7
    let stored2 :=
      if 4 < grs ∨ (grs = 4 ∧ stored1 &&& 1 = 1) then stored1 + 1 else stored1
    stored2 % 2 ^ f.mant_bits

/-- Width of `UnpackedFloat::mantissa_type` (unpacked.hpp lines 33-35):
stored bits, plus the implicit bit when the format has one, plus the
policy's guard bits. -/
def mantissaWidth (f : FormatDescriptor) (guard : Nat) : Nat :=
  f.mant_bits + (if f.has_implicit_bit then 1 else 0) + guard

/-- The `UnpackedFloat` computational representation (unpacked.hpp):
sign flag, raw biased exponent (of `exponent_type`, `exp_bits` wide), and
wide mantissa (of `mantissa_type`). -/
structure UnpackedFloat where
  sign : Bool
  exponent : Nat
  mantissa : Nat
  deriving Repr, DecidableEq

/-- Well-formedness of an `UnpackedFloat` value for a format and a guard-bit
count: each component fits its exact-width C++ type. -/
def UnpackedFloat.wf (f : FormatDescriptor) (guard : Nat)
    (u : UnpackedFloat) : Prop :=
  u.exponent < 2 ^ f.exp_bits ∧ u.mantissa < 2 ^ mantissaWidth f guard

instance (f : FormatDescriptor) (guard : Nat) (u : UnpackedFloat) :
    Decidable (u.wf f guard) := by
  unfold UnpackedFloat.wf
  infer_instance

/-- `unpack` (pack_unpack.hpp lines 21-73): extract sign, exponent and stored
mantissa with shift-and-mask, shift the stored bits left over the guard
positions, and set the implicit bit exactly when the format has one and the
extracted exponent is nonzero.  All intermediate values fit their C++ types,
so no truncation points arise. -/
def unpack (f : FormatDescriptor) (rp : RoundingPolicy)
    (bits : Nat) : UnpackedFloat :=
  let sign := ((bits >>> f.sign_offset) &&& (2 ^ f.sign_bits - 1)) ≠ 0
  let expo := (bits >>> f.exp_offset) &&& (2 ^ f.exp_bits - 1)
  let mant_stored := (bits >>> f.mant_offset) &&& (2 ^ f.mant_bits - 1)
  let mant :=
    if f.has_implicit_bit then
      if expo ≠ 0 then
        (mant_stored <<< rp.guard_bits) |||
          (1 <<< (f.mant_bits + rp.guard_bits))
      else
        mant_stored <<< rp.guard_bits
    else
      mant_stored <<< rp.guard_bits
  { sign := decide sign, exponent := expo, mantissa := mant }

/-- `pack` (pack_unpack.hpp lines 87-114): OR of the sign, exponent and
rounded-mantissa fields shifted to their offsets.  Each `% 2^total_bits` is
the truncation of the shift performed inside the exact-width
`storage_type`. -/
def pack (f : FormatDescriptor) (rp : RoundingPolicy)
    (u : UnpackedFloat) : Nat :=
  let signField :=
    (((if u.sign then 1 else 0) : Nat) <<< f.sign_offset) % 2 ^ f.total_bits
  let expField := (u.exponent <<< f.exp_offset) % 2 ^ f.total_bits
  let rounded := rp.round_mantissa f u.mantissa u.sign
  let mantField := (rounded <<< f.mant_offset) % 2 ^ f.total_bits
  signField ||| expField ||| mantField

/-- The stored-mantissa bits of an unpacked value: the wide mantissa with
the guard bits shifted away and the implicit-bit position masked off. -/
def storedBitsOf (f : FormatDescriptor) (guard : Nat)
    (u : UnpackedFloat) : Nat :=
  (u.mantissa >>> guard) &&& (2 ^ f.mant_bits - 1)

/-- The candidate stored value computed by steps 1-2 of
`ToNearestTiesToEven::round_mantissa` (rounding.hpp lines 93-105): shift the
3 guard bits away and mask the implicit bit when the format has one. -/
def tnteCandidate (f : FormatDescriptor) (wide : Nat) : Nat :=
  if f.has_implicit_bit then (wide >>> 3) &&& (2 ^ f.mant_bits - 1)
  else wide >>> 3

/-- Bit position `i` lies inside the field of width `w` at offset `off`. -/
def inField (off w i : Nat) : Prop :=
  off ≤ i ∧ i < off + w

instance (off w i : Nat) : Decidable (inField off w i) := by
  unfold inField
  infer_instance

/-- Bit position `i` is covered by the sign, exponent or mantissa field. -/
def coveredBit (f : FormatDescriptor) (i : Nat) : Prop :=
  inField f.sign_offset f.sign_bits i ∨ inField f.exp_offset f.exp_bits i ∨
  inField f.mant_offset f.mant_bits i

instance (f : FormatDescriptor) (i : Nat) : Decidable (coveredBit f i) := by
  unfold coveredBit
  infer_instance

/-- Two bit ranges are disjoint. -/
def rangesDisjoint (o1 w1 o2 w2 : Nat) : Prop :=
  o1 + w1 ≤ o2 ∨ o2 + w2 ≤ o1

instance (o1 w1 o2 w2 : Nat) : Decidable (rangesDisjoint o1 w1 o2 w2) := by
  unfold rangesDisjoint
  infer_instance

/-- The sign, exponent and mantissa fields are pairwise disjoint. -/
def FormatDescriptor.disjointFields (f : FormatDescriptor) : Prop :=
  rangesDisjoint f.sign_offset f.sign_bits f.exp_offset f.exp_bits ∧
  rangesDisjoint f.sign_offset f.sign_bits f.mant_offset f.mant_bits ∧
  rangesDisjoint f.exp_offset f.exp_bits f.mant_offset f.mant_bits

instance (f : FormatDescriptor) : Decidable f.disjointFields := by
  unfold FormatDescriptor.disjointFields
  infer_instance

/-! Bit-level toolkit. -/

theorem and_mask_lt (x w : Nat) : x &&& (2 ^ w - 1) < 2 ^ w :=
  Nat.lt_of_le_of_lt Nat.and_le_right (Nat.sub_lt (Nat.two_pow_pos w) Nat.one_pos)

theorem shiftLeft_lt_of_lt (x w off T : Nat) (hx : x < 2 ^ w)
    (h : off + w ≤ T) : x <<< off < 2 ^ T := by
  rw [Nat.shiftLeft_eq]
  calc x * 2 ^ off < 2 ^ w * 2 ^ off := by
        exact Nat.mul_lt_mul_of_lt_of_le hx (Nat.le_refl _) (Nat.two_pow_pos off)
    _ = 2 ^ (off + w) := by rw [← Nat.pow_add, Nat.add_comm]
    _ ≤ 2 ^ T := Nat.pow_le_pow_right (by omega) h

theorem extract_testBit (b off w j : Nat) (hj : j < w) :
    ((b >>> off) &&& (2 ^ w - 1)).testBit j = b.testBit (off + j) := by
  simp [Nat.testBit_and, Nat.testBit_shiftRight, Nat.testBit_two_pow_sub_one, hj]

theorem testBit_of_lt_two_pow_le (x w j : Nat) (hx : x < 2 ^ w) (hj : w ≤ j) :
    x.testBit j = false :=
  Nat.testBit_lt_two_pow (Nat.lt_of_lt_of_le hx (Nat.pow_le_pow_right (by omega) hj))

theorem fieldAt_testBit_window (p off w i b : Nat) (hp : p < 2 ^ w)
    (hwin : ∀ j, j < w → p.testBit j = b.testBit (off + j)) :
    (p <<< off).testBit i = (decide (inField off w i) && b.testBit i) := by
  rw [Nat.testBit_shiftLeft]
  by_cases h1 : off ≤ i
  · by_cases h2 : i < off + w
    · have hj : i - off < w := by omega
      have hoff : off + (i - off) = i := by omega
      have hin : inField off w i := ⟨h1, h2⟩
      rw [hwin (i - off) hj, hoff]
      simp [hin, h1]
    · have hz : p.testBit (i - off) = false :=
        testBit_of_lt_two_pow_le p w (i - off) hp (by omega)
      have hin : ¬ inField off w i := by unfold inField; omega
      simp [hz, hin]
  · have hin : ¬ inField off w i := by unfold inField; omega
    simp [hin, h1]

theorem fieldAt_testBit_out (p off w i : Nat) (hp : p < 2 ^ w)
    (h : ¬ inField off w i) : (p <<< off).testBit i = false := by
  rw [Nat.testBit_shiftLeft]
  by_cases h1 : off ≤ i
  · have hz : p.testBit (i - off) = false :=
      testBit_of_lt_two_pow_le p w (i - off) hp (by unfold inField at h; omega)
    simp [hz]
  · simp [h1]

theorem fieldAt_testBit_in (p off i : Nat) (h1 : off ≤ i) :
    (p <<< off).testBit i = p.testBit (i - off) := by
  rw [Nat.testBit_shiftLeft]
  simp [h1]

theorem or_high_and_mask (s w p : Nat) (hs : s < 2 ^ w) (hp : w ≤ p) :
    (s ||| 1 <<< p) &&& (2 ^ w - 1) = s := by
  apply Nat.eq_of_testBit_eq
  intro i
  simp only [Nat.testBit_and, Nat.testBit_or, Nat.testBit_two_pow_sub_one]
  by_cases h : i < w
  · rw [fieldAt_testBit_out 1 p 1 i (by omega) (by unfold inField; omega)]
    simp [h]
  · have hz := testBit_of_lt_two_pow_le s w i hs (by omega)
    simp [h, hz]

theorem mod_two_pow_eq_zero_of_low_false (x g : Nat)
    (h : ∀ i, i < g → x.testBit i = false) : x % 2 ^ g = 0 := by
  apply Nat.eq_of_testBit_eq
  intro i
  rw [Nat.testBit_mod_two_pow, Nat.zero_testBit]
  by_cases hi : i < g
  · simp [hi, h i hi]
  · simp [hi]

theorem not_inField_of_disjoint (o1 w1 o2 w2 i : Nat)
    (hd : rangesDisjoint o1 w1 o2 w2) (hi : inField o2 w2 i) :
    ¬ inField o1 w1 i := by
  unfold rangesDisjoint at hd
  unfold inField at hi ⊢
  omega

theorem extract_window (a x o w : Nat) (hx : x < 2 ^ w)
    (ha : ∀ j, j < w → a.testBit (o + j) = x.testBit j) :
    (a >>> o) &&& (2 ^ w - 1) = x := by
  apply Nat.eq_of_testBit_eq
  intro j
  simp only [Nat.testBit_and, Nat.testBit_shiftRight, Nat.testBit_two_pow_sub_one]
  by_cases hj : j < w
  · simp [hj, ha j hj]
  · have hz := testBit_of_lt_two_pow_le x w j hx (by omega)
    simp [hj, hz]


theorem shiftLeft_mod_low (x g : Nat) : (x <<< g) % 2 ^ g = 0 := by
  rw [Nat.shiftLeft_eq, Nat.mul_mod_left]

/-! Structural lemmas about unpack and pack. -/

theorem unpack_exponent (f : FormatDescriptor) (rp : RoundingPolicy) (b : Nat) :
    (unpack f rp b).exponent = (b >>> f.exp_offset) &&& (2 ^ f.exp_bits - 1) := rfl

theorem unpack_sign (f : FormatDescriptor) (rp : RoundingPolicy) (b : Nat) :
    (unpack f rp b).sign =
      decide (((b >>> f.sign_offset) &&& (2 ^ f.sign_bits - 1)) ≠ 0) := rfl

theorem unpack_mantissa (f : FormatDescriptor) (rp : RoundingPolicy) (b : Nat) :
    (unpack f rp b).mantissa =
      if f.has_implicit_bit = true ∧
          ((b >>> f.exp_offset) &&& (2 ^ f.exp_bits - 1)) ≠ 0 then
        (((b >>> f.mant_offset) &&& (2 ^ f.mant_bits - 1)) <<< rp.guard_bits) |||
          (1 <<< (f.mant_bits + rp.guard_bits))
      else
        ((b >>> f.mant_offset) &&& (2 ^ f.mant_bits - 1)) <<< rp.guard_bits := by
  unfold unpack
  by_cases h1 : f.has_implicit_bit = true
  · by_cases h2 : ((b >>> f.exp_offset) &&& (2 ^ f.exp_bits - 1)) ≠ 0
    · simp [h1, h2]
    · simp [h1, h2]
  · simp [h1]

theorem towardZero_round_lt (f : FormatDescriptor) (w : Nat) (neg : Bool) :
    TowardZero.round_mantissa f w neg < 2 ^ f.mant_bits := by
  unfold TowardZero
  dsimp only
  split <;> exact Nat.mod_lt _ (Nat.two_pow_pos _)

theorem tnte_round_lt (f : FormatDescriptor) (w : Nat) (neg : Bool) :
    ToNearestTiesToEven.round_mantissa f w neg < 2 ^ f.mant_bits := by
  unfold ToNearestTiesToEven
  dsimp only
  exact Nat.mod_lt _ (Nat.two_pow_pos _)

theorem round_lt (f : FormatDescriptor) (rp : RoundingPolicy)
    (hrp : rp = TowardZero ∨ rp = ToNearestTiesToEven) (w : Nat) (neg : Bool) :
    rp.round_mantissa f w neg < 2 ^ f.mant_bits := by
  rcases hrp with h | h <;> subst h
  · exact towardZero_round_lt f w neg
  · exact tnte_round_lt f w neg

theorem pack_eq (f : FormatDescriptor) (rp : RoundingPolicy) (hf : f.valid)
    (u : UnpackedFloat) (hu : u.exponent < 2 ^ f.exp_bits)
    (hr : rp.round_mantissa f u.mantissa u.sign < 2 ^ f.mant_bits) :
    pack f rp u =
      (((if u.sign then 1 else 0) : Nat) <<< f.sign_offset) |||
        (u.exponent <<< f.exp_offset) |||
        ((rp.round_mantissa f u.mantissa u.sign) <<< f.mant_offset) := by
  obtain ⟨hsb, heb, hmb, hsum, hso, heo, hmo⟩ := hf
  have hsv : ((if u.sign then 1 else 0) : Nat) < 2 ^ f.sign_bits := by
    have h1 : 1 < 2 ^ f.sign_bits := Nat.one_lt_two_pow (by omega)
    split <;> omega
  unfold pack
  dsimp only
  rw [Nat.mod_eq_of_lt (shiftLeft_lt_of_lt _ f.sign_bits _ _ hsv hso),
      Nat.mod_eq_of_lt (shiftLeft_lt_of_lt _ f.exp_bits _ _ hu heo),
      Nat.mod_eq_of_lt (shiftLeft_lt_of_lt _ f.mant_bits _ _ hr hmo)]

/-! Rounding recovery: both policies return the stored bits unchanged on a
mantissa fresh out of unpack. -/

theorem towardZero_round_plain (f : FormatDescriptor) (s : Nat)
    (hs : s < 2 ^ f.mant_bits) (neg : Bool) :
    TowardZero.round_mantissa f s neg = s := by
  unfold TowardZero
  dsimp only
  split
  · rw [Nat.and_pow_two_sub_one_of_lt_two_pow hs]
    exact Nat.mod_eq_of_lt hs
  · exact Nat.mod_eq_of_lt hs

theorem towardZero_round_implicit (f : FormatDescriptor) (s : Nat)
    (hs : s < 2 ^ f.mant_bits) (himp : f.has_implicit_bit = true) (neg : Bool) :
    TowardZero.round_mantissa f (s ||| 1 <<< f.mant_bits) neg = s := by
  unfold TowardZero
  dsimp only
  rw [if_pos himp, or_high_and_mask s f.mant_bits f.mant_bits hs (Nat.le_refl _)]
  exact Nat.mod_eq_of_lt hs

theorem tnte_round_plain (f : FormatDescriptor) (s : Nat)
    (hs : s < 2 ^ f.mant_bits) (neg : Bool) :
    ToNearestTiesToEven.round_mantissa f (s <<< 3) neg = s := by
  unfold ToNearestTiesToEven
  dsimp only
  have hgrs : (s <<< 3) &&& 7 = 0 := by
    have h7 : (7 : Nat) = 2 ^ 3 - 1 := rfl
    rw [h7, Nat.and_pow_two_sub_one_eq_mod]
    exact shiftLeft_mod_low s 3
  rw [Nat.shiftLeft_shiftRight, hgrs]
  have hst : (if f.has_implicit_bit = true then s &&& (2 ^ f.mant_bits - 1) else s) = s := by
    split
    · exact Nat.and_pow_two_sub_one_of_lt_two_pow hs
    · rfl
  rw [hst, if_neg (by simp)]
  exact Nat.mod_eq_of_lt hs

theorem tnte_round_implicit (f : FormatDescriptor) (s : Nat)
    (hs : s < 2 ^ f.mant_bits) (himp : f.has_implicit_bit = true) (neg : Bool) :
    ToNearestTiesToEven.round_mantissa f
      ((s <<< 3) ||| 1 <<< (f.mant_bits + 3)) neg = s := by
  unfold ToNearestTiesToEven
  dsimp only
  have hsr : ((s <<< 3) ||| 1 <<< (f.mant_bits + 3)) >>> 3 = s ||| 1 <<< f.mant_bits := by
    apply Nat.eq_of_testBit_eq
    intro i
    simp only [Nat.testBit_shiftRight, Nat.testBit_or, Nat.testBit_shiftLeft]
    have e1 : 3 + i - 3 = i := by omega
    have e2 : 3 + i - (f.mant_bits + 3) = i - f.mant_bits := by omega
    have e3 : decide (3 + i ≥ f.mant_bits + 3) = decide (i ≥ f.mant_bits) :=
      decide_eq_decide.mpr (by omega)
    have e4 : decide (3 + i ≥ 3) = true := decide_eq_true (by omega)
    rw [e1, e2, e3, e4, Bool.true_and]
  have hgrs : ((s <<< 3) ||| 1 <<< (f.mant_bits + 3)) &&& 7 = 0 := by
    have h7 : (7 : Nat) = 2 ^ 3 - 1 := rfl
    rw [h7, Nat.and_pow_two_sub_one_eq_mod]
    apply mod_two_pow_eq_zero_of_low_false
    intro i hi
    simp only [Nat.testBit_or, Nat.testBit_shiftLeft]
    have e5 : decide (i ≥ 3) = false := decide_eq_false (by omega)
    have e6 : decide (i ≥ f.mant_bits + 3) = false := decide_eq_false (by omega)
    rw [e5, e6, Bool.false_and, Bool.false_and, Bool.or_self]
  rw [hsr, hgrs, if_pos himp,
      or_high_and_mask s f.mant_bits f.mant_bits hs (Nat.le_refl _),
      if_neg (by simp)]
  exact Nat.mod_eq_of_lt hs


theorem towardZero_guard : TowardZero.guard_bits = 0 := rfl

theorem tnte_guard : ToNearestTiesToEven.guard_bits = 3 := rfl

theorem unpack_sign_eq_testBit (f : FormatDescriptor) (rp : RoundingPolicy)
    (b : Nat) (hs1 : f.sign_bits = 1) :
    (unpack f rp b).sign = b.testBit f.sign_offset := by
  rw [unpack_sign, hs1, Nat.testBit_to_div_mod,
      show (2 : Nat) ^ 1 - 1 = 1 from rfl, Nat.and_one_is_mod,
      Nat.shiftRight_eq_div_pow]
  exact decide_eq_decide.mpr (by omega)

theorem round_recovers (f : FormatDescriptor) (rp : RoundingPolicy)
    (hrp : rp = TowardZero ∨ rp = ToNearestTiesToEven) (b : Nat) :
    rp.round_mantissa f (unpack f rp b).mantissa (unpack f rp b).sign =
      (b >>> f.mant_offset) &&& (2 ^ f.mant_bits - 1) := by
  have hslt : (b >>> f.mant_offset) &&& (2 ^ f.mant_bits - 1) < 2 ^ f.mant_bits :=
    and_mask_lt _ _
  have hm := unpack_mantissa f rp b
  rcases hrp with h | h <;> subst h
  · by_cases hcond : f.has_implicit_bit = true ∧
        ((b >>> f.exp_offset) &&& (2 ^ f.exp_bits - 1)) ≠ 0
    · rw [hm, if_pos hcond, towardZero_guard, Nat.shiftLeft_zero, Nat.add_zero]
      exact towardZero_round_implicit f _ hslt hcond.1 _
    · rw [hm, if_neg hcond, towardZero_guard, Nat.shiftLeft_zero]
      exact towardZero_round_plain f _ hslt _
  · by_cases hcond : f.has_implicit_bit = true ∧
        ((b >>> f.exp_offset) &&& (2 ^ f.exp_bits - 1)) ≠ 0
    · rw [hm, if_pos hcond, tnte_guard]
      exact tnte_round_implicit f _ hslt hcond.1 _
    · rw [hm, if_neg hcond, tnte_guard]
      exact tnte_round_plain f _ hslt _

theorem roundtrip_core (f : FormatDescriptor) (rp : RoundingPolicy)
    (hf : f.valid) (hs1 : f.sign_bits = 1)
    (hrp : rp = TowardZero ∨ rp = ToNearestTiesToEven)
    (b : Nat) (i : Nat) :
    (pack f rp (unpack f rp b)).testBit i =
      (if coveredBit f i then b.testBit i else false) := by
  have huelt : (unpack f rp b).exponent < 2 ^ f.exp_bits := and_mask_lt _ _
  have hslt : (b >>> f.mant_offset) &&& (2 ^ f.mant_bits - 1) < 2 ^ f.mant_bits :=
    and_mask_lt _ _
  have hrec := round_recovers f rp hrp b
  have hplt : rp.round_mantissa f (unpack f rp b).mantissa (unpack f rp b).sign
      < 2 ^ f.mant_bits := by rw [hrec]; exact hslt
  rw [pack_eq f rp hf _ huelt hplt, hrec]
  rw [Nat.testBit_or, Nat.testBit_or]
  have hsv : ((if (unpack f rp b).sign then 1 else 0) : Nat) < 2 ^ f.sign_bits := by
    have h1 : 1 < 2 ^ f.sign_bits := Nat.one_lt_two_pow (by omega)
    split <;> omega
  have hwin_sign : ∀ j, j < f.sign_bits →
      ((if (unpack f rp b).sign then 1 else 0) : Nat).testBit j =
        b.testBit (f.sign_offset + j) := by
    intro j hj
    have hj0 : j = 0 := by omega
    subst hj0
    rw [Nat.add_zero]
    have hsg := unpack_sign_eq_testBit f rp b hs1
    cases hbv : (unpack f rp b).sign
    · rw [hbv] at hsg
      simp [← hsg]
    · rw [hbv] at hsg
      simp [← hsg]
  rw [fieldAt_testBit_window _ f.sign_offset f.sign_bits i b hsv hwin_sign]
  rw [unpack_exponent f rp b]
  rw [fieldAt_testBit_window _ f.exp_offset f.exp_bits i b (and_mask_lt _ _)
        (fun j hj => extract_testBit b f.exp_offset f.exp_bits j hj)]
  rw [fieldAt_testBit_window _ f.mant_offset f.mant_bits i b hslt
        (fun j hj => extract_testBit b f.mant_offset f.mant_bits j hj)]
  by_cases hcov : coveredBit f i
  · rw [if_pos hcov]
    cases hbt : b.testBit i
    · simp
    · simp only [Bool.and_true]
      rcases hcov with h | h | h <;> simp [h]
  · rw [if_neg hcov]
    unfold coveredBit at hcov
    push_neg at hcov
    simp [hcov.1, hcov.2.1, hcov.2.2]


/-- C1: the round-trip identity as frozen is false: it quantifies over every
FormatDescriptor satisfying the construction invariants, but for a
descriptor with a 2-bit sign field (which the invariants allow) pack emits
only the single bit `sign ? 1 : 0` at sign_offset, so the upper sign bit of
the input is lost.  Concretely: descriptor sign 2@0, exp 1@2, mant 1@3,
total 4, no implicit bit; input 0b0010 round-trips to 0b0001, differing at
covered bit 1. -/
theorem claim_C1_counterexample :
    (FormatDescriptor.mk 2 0 1 2 1 3 4 false 0).valid ∧
    coveredBit (FormatDescriptor.mk 2 0 1 2 1 3 4 false 0) 1 ∧
    (2 : Nat) < 2 ^ (FormatDescriptor.mk 2 0 1 2 1 3 4 false 0).total_bits ∧
    ¬ ((pack (FormatDescriptor.mk 2 0 1 2 1 3 4 false 0) TowardZero
          (unpack (FormatDescriptor.mk 2 0 1 2 1 3 4 false 0) TowardZero 2)).testBit 1 =
        (2 : Nat).testBit 1) := by
  decide

/-- C1 (amended: restricted to descriptors with a 1-bit sign field):
for every FormatDescriptor satisfying the construction invariants with
sign_bits = 1, for either rounding policy, and for every storage pattern b
of total_bits width, pack (unpack b) agrees with b on every bit covered by
the sign, exponent or mantissa field and is zero on every other bit. -/
theorem claim_C1_roundtrip (f : FormatDescriptor) (rp : RoundingPolicy)
    (hf : f.valid) (hs1 : f.sign_bits = 1)
    (hrp : rp = TowardZero ∨ rp = ToNearestTiesToEven)
    (b : Nat) (hb : b < 2 ^ f.total_bits) (i : Nat) :
    (pack f rp (unpack f rp b)).testBit i =
      (if coveredBit f i then b.testBit i else false) :=
  roundtrip_core f rp hf hs1 hrp b i

/-- Witness for C1 at the fp8_e5m2 format, ties-to-even, input 0xB3, bit 7. -/
theorem claim_C1_roundtrip_witness :
    (pack fp8_e5m2 ToNearestTiesToEven
        (unpack fp8_e5m2 ToNearestTiesToEven 0xB3)).testBit 7 =
      (if coveredBit fp8_e5m2 7 then (0xB3 : Nat).testBit 7 else false) :=
  claim_C1_roundtrip fp8_e5m2 ToNearestTiesToEven (by decide) (by decide)
    (Or.inr rfl) 0xB3 (by decide) 7



theorem rangesDisjoint_symm (o1 w1 o2 w2 : Nat)
    (h : rangesDisjoint o1 w1 o2 w2) : rangesDisjoint o2 w2 o1 w1 := by
  unfold rangesDisjoint at h ⊢
  omega

theorem pack_extract_exp (f : FormatDescriptor) (rp : RoundingPolicy)
    (hf : f.valid) (hd : f.disjointFields)
    (hrp : rp = TowardZero ∨ rp = ToNearestTiesToEven)
    (u : UnpackedFloat) (hu : u.exponent < 2 ^ f.exp_bits) :
    ((pack f rp u) >>> f.exp_offset) &&& (2 ^ f.exp_bits - 1) = u.exponent := by
  have hr := round_lt f rp hrp u.mantissa u.sign
  have hsv : ((if u.sign then 1 else 0) : Nat) < 2 ^ f.sign_bits := by
    have h1 : 1 < 2 ^ f.sign_bits := Nat.one_lt_two_pow (by have := hf.1; omega)
    split <;> omega
  rw [pack_eq f rp hf u hu hr]
  apply extract_window _ _ _ _ hu
  intro j hj
  have hin : inField f.exp_offset f.exp_bits (f.exp_offset + j) :=
    ⟨Nat.le_add_right _ _, by omega⟩
  rw [Nat.testBit_or, Nat.testBit_or]
  rw [fieldAt_testBit_out _ _ f.sign_bits _ hsv
        (not_inField_of_disjoint _ _ _ _ _ hd.1 hin)]
  rw [fieldAt_testBit_out _ _ f.mant_bits _ hr
        (not_inField_of_disjoint _ _ _ _ _ (rangesDisjoint_symm _ _ _ _ hd.2.2) hin)]
  rw [fieldAt_testBit_in _ _ _ (Nat.le_add_right _ _)]
  have e : f.exp_offset + j - f.exp_offset = j := by omega
  rw [e]
  simp

theorem pack_extract_mant (f : FormatDescriptor) (rp : RoundingPolicy)
    (hf : f.valid) (hd : f.disjointFields)
    (hrp : rp = TowardZero ∨ rp = ToNearestTiesToEven)
    (u : UnpackedFloat) (hu : u.exponent < 2 ^ f.exp_bits) :
    ((pack f rp u) >>> f.mant_offset) &&& (2 ^ f.mant_bits - 1) =
      rp.round_mantissa f u.mantissa u.sign := by
  have hr := round_lt f rp hrp u.mantissa u.sign
  have hsv : ((if u.sign then 1 else 0) : Nat) < 2 ^ f.sign_bits := by
    have h1 : 1 < 2 ^ f.sign_bits := Nat.one_lt_two_pow (by have := hf.1; omega)
    split <;> omega
  rw [pack_eq f rp hf u hu hr]
  apply extract_window _ _ _ _ hr
  intro j hj
  have hin : inField f.mant_offset f.mant_bits (f.mant_offset + j) :=
    ⟨Nat.le_add_right _ _, by omega⟩
  rw [Nat.testBit_or, Nat.testBit_or]
  rw [fieldAt_testBit_out _ _ f.sign_bits _ hsv
        (not_inField_of_disjoint _ _ _ _ _ hd.2.1 hin)]
  rw [fieldAt_testBit_out _ _ f.exp_bits _ hu
        (not_inField_of_disjoint _ _ _ _ _ hd.2.2 hin)]
  rw [fieldAt_testBit_in _ _ _ (Nat.le_add_right _ _)]
  have e : f.mant_offset + j - f.mant_offset = j := by omega
  rw [e]
  simp

/-- C2: pack performs no exponent validation or adjustment and no mantissa
overflow handling: for every well-typed UnpackedFloat (any exponent of the
exponent type, any wide mantissa, including the all-ones rounding-overflow
case), the exponent field of the packed result is exactly u.exponent and the
mantissa field is exactly the raw value returned by round_mantissa. -/
theorem claim_C2_pack_fields (f : FormatDescriptor) (rp : RoundingPolicy)
    (hf : f.valid) (hd : f.disjointFields)
    (hrp : rp = TowardZero ∨ rp = ToNearestTiesToEven)
    (u : UnpackedFloat) (hu : u.exponent < 2 ^ f.exp_bits) :
    ((pack f rp u) >>> f.exp_offset) &&& (2 ^ f.exp_bits - 1) = u.exponent ∧
    ((pack f rp u) >>> f.mant_offset) &&& (2 ^ f.mant_bits - 1) =
      rp.round_mantissa f u.mantissa u.sign :=
  ⟨pack_extract_exp f rp hf hd hrp u hu,
   pack_extract_mant f rp hf hd hrp u hu⟩

/-- Witness for C2 at fp8_e5m2 with an all-ones wide mantissa (the
rounding-overflow case): the exponent field passes through unchanged. -/
theorem claim_C2_pack_fields_witness :
    ((pack fp8_e5m2 ToNearestTiesToEven ⟨false, 12, 63⟩) >>> fp8_e5m2.exp_offset) &&&
        (2 ^ fp8_e5m2.exp_bits - 1) = (12 : Nat) ∧
    ((pack fp8_e5m2 ToNearestTiesToEven ⟨false, 12, 63⟩) >>> fp8_e5m2.mant_offset) &&&
        (2 ^ fp8_e5m2.mant_bits - 1) =
      ToNearestTiesToEven.round_mantissa fp8_e5m2 63 false :=
  claim_C2_pack_fields fp8_e5m2 ToNearestTiesToEven (by decide) (by decide)
    (Or.inr rfl) ⟨false, 12, 63⟩ (by decide)

/-- C3: the ToNearestTiesToEven decision rule: with candidate S (guard bits
shifted away, implicit bit masked off) below the overflow boundary and GRS
the low 3 bits of the wide input, the result is S for GRS < 4, S for a tie
with even S, S + 1 for a tie with odd S, and S + 1 for GRS > 4. -/
theorem claim_C3_tnte_decision (f : FormatDescriptor) (w : Nat) (neg : Bool)
    (hS : tnteCandidate f w < 2 ^ f.mant_bits - 1) :
    (w &&& 7 < 4 →
      ToNearestTiesToEven.round_mantissa f w neg = tnteCandidate f w) ∧
    (w &&& 7 = 4 → tnteCandidate f w % 2 = 0 →
      ToNearestTiesToEven.round_mantissa f w neg = tnteCandidate f w) ∧
    (w &&& 7 = 4 → tnteCandidate f w % 2 = 1 →
      ToNearestTiesToEven.round_mantissa f w neg = tnteCandidate f w + 1) ∧
    (4 < w &&& 7 →
      ToNearestTiesToEven.round_mantissa f w neg = tnteCandidate f w + 1) := by
  have hpos := Nat.two_pow_pos f.mant_bits
  have hst : (if f.has_implicit_bit = true then w >>> 3 &&& (2 ^ f.mant_bits - 1)
      else w >>> 3) = tnteCandidate f w := rfl
  unfold ToNearestTiesToEven
  dsimp only
  rw [hst, Nat.and_one_is_mod]
  refine ⟨?_, ?_, ?_, ?_⟩
  · intro h
    rw [if_neg (by omega)]
    exact Nat.mod_eq_of_lt (by omega)
  · intro h he
    rw [if_neg (by omega)]
    exact Nat.mod_eq_of_lt (by omega)
  · intro h ho
    rw [if_pos (by omega)]
    exact Nat.mod_eq_of_lt (by omega)
  · intro h
    rw [if_pos (by omega)]
    exact Nat.mod_eq_of_lt (by omega)

/-- Witness for C3: fp8_e5m2, wide mantissa 44 (candidate 1, GRS = 4, odd
tie), rounds to 2. -/
theorem claim_C3_tnte_decision_witness :
    tnteCandidate fp8_e5m2 44 < 2 ^ fp8_e5m2.mant_bits - 1 ∧
    ToNearestTiesToEven.round_mantissa fp8_e5m2 44 false =
      tnteCandidate fp8_e5m2 44 + 1 :=
  ⟨by decide,
   (claim_C3_tnte_decision fp8_e5m2 44 false (by decide)).2.2.1 (by decide)
     (by decide)⟩

/-- C4: for formats with an implicit bit, unpack sets the bit at position
mant_bits + guard_bits of the mantissa to 1 iff the extracted raw exponent
field is nonzero, for every policy and every input pattern; and unpack is
independent of the format's exponent bias. -/
theorem claim_C4_implicit_bit (f : FormatDescriptor) (rp : RoundingPolicy)
    (himp : f.has_implicit_bit = true) (b : Nat) :
    ((unpack f rp b).mantissa.testBit (f.mant_bits + rp.guard_bits) = true ↔
      (unpack f rp b).exponent ≠ 0) ∧
    (∀ c : Int, unpack { f with exp_bias := c } rp b = unpack f rp b) := by
  constructor
  · have hs : (b >>> f.mant_offset) &&& (2 ^ f.mant_bits - 1) < 2 ^ f.mant_bits :=
      and_mask_lt _ _
    have hz : ((b >>> f.mant_offset &&& 2 ^ f.mant_bits - 1) <<<
        rp.guard_bits).testBit (f.mant_bits + rp.guard_bits) = false := by
      rw [fieldAt_testBit_in _ _ _ (by omega)]
      exact testBit_of_lt_two_pow_le _ f.mant_bits _ hs (by omega)
    rw [unpack_mantissa, unpack_exponent]
    by_cases he : ((b >>> f.exp_offset) &&& (2 ^ f.exp_bits - 1)) ≠ 0
    · rw [if_pos ⟨himp, he⟩]
      rw [Nat.testBit_or, hz]
      have h1 : ((1 : Nat) <<< (f.mant_bits + rp.guard_bits)).testBit
          (f.mant_bits + rp.guard_bits) = true := by
        rw [Nat.shiftLeft_eq, Nat.one_mul, Nat.testBit_two_pow_self]
      rw [h1]
      simpa using he
    · rw [if_neg (by tauto)]
      rw [hz]
      simpa using he
  · intro c
    rfl

/-- Witness for C4 at fp8_e5m2, TowardZero, input 0xB3 (normal number) and
bias override 0. -/
theorem claim_C4_implicit_bit_witness :
    ((unpack fp8_e5m2 TowardZero 0xB3).mantissa.testBit
        (fp8_e5m2.mant_bits + TowardZero.guard_bits) = true ↔
      (unpack fp8_e5m2 TowardZero 0xB3).exponent ≠ 0) ∧
    unpack { fp8_e5m2 with exp_bias := 0 } TowardZero 0xB3 =
      unpack fp8_e5m2 TowardZero 0xB3 :=
  ⟨(claim_C4_implicit_bit fp8_e5m2 TowardZero (by decide) 0xB3).1,
   (claim_C4_implicit_bit fp8_e5m2 TowardZero (by decide) 0xB3).2 0⟩

/-- C5: TowardZero is pure truncation: 0 guard bits; the result is the low
mant_bits bits of the input when an implicit bit exists and the input
unchanged otherwise; it never exceeds the input. -/
theorem claim_C5_towardZero (f : FormatDescriptor) (w : Nat) (neg : Bool)
    (hw : w < 2 ^ mantissaWidth f TowardZero.guard_bits) :
    TowardZero.guard_bits = 0 ∧
    TowardZero.round_mantissa f w neg =
      (if f.has_implicit_bit = true then w % 2 ^ f.mant_bits else w) ∧
    TowardZero.round_mantissa f w neg ≤ w := by
  refine ⟨rfl, ?_, ?_⟩
  · unfold TowardZero at hw ⊢
    dsimp only at hw ⊢
    split
    · rw [Nat.and_pow_two_sub_one_eq_mod]
      exact Nat.mod_eq_of_lt (Nat.mod_lt _ (Nat.two_pow_pos _))
    · next h =>
      apply Nat.mod_eq_of_lt
      unfold mantissaWidth at hw
      rw [if_neg h] at hw
      simpa using hw
  · unfold TowardZero
    dsimp only
    split
    · rw [Nat.and_pow_two_sub_one_eq_mod]
      exact Nat.le_trans (Nat.mod_le _ _) (Nat.mod_le _ _)
    · exact Nat.mod_le _ _

/-- Witness for C5 at fp8_e5m2 with wide mantissa 5. -/
theorem claim_C5_towardZero_witness :
    (5 : Nat) < 2 ^ mantissaWidth fp8_e5m2 TowardZero.guard_bits ∧
    TowardZero.round_mantissa fp8_e5m2 5 false =
      (if fp8_e5m2.has_implicit_bit = true then 5 % 2 ^ fp8_e5m2.mant_bits
       else 5) :=
  ⟨by decide, (claim_C5_towardZero fp8_e5m2 5 false (by decide)).2.1⟩

/-- C6 (implicit): mantissa overflow wraps to zero.  Under ToNearestTiesToEven,
when the decision increments an all-ones candidate, the cast to the
mant_bits-wide result type reduces 2^mant_bits modulo 2^mant_bits to 0, so
pack emits a mantissa field of 0 with the exponent field unchanged. -/
theorem claim_C6_overflow_wraps (f : FormatDescriptor)
    (hf : f.valid) (hd : f.disjointFields) (u : UnpackedFloat)
    (hu : u.exponent < 2 ^ f.exp_bits)
    (hall : tnteCandidate f u.mantissa = 2 ^ f.mant_bits - 1)
    (hup : 4 ≤ u.mantissa &&& 7) :
    ToNearestTiesToEven.round_mantissa f u.mantissa u.sign = 0 ∧
    ((pack f ToNearestTiesToEven u) >>> f.mant_offset) &&&
        (2 ^ f.mant_bits - 1) = 0 ∧
    ((pack f ToNearestTiesToEven u) >>> f.exp_offset) &&&
        (2 ^ f.exp_bits - 1) = u.exponent := by
  have hpos := Nat.two_pow_pos f.mant_bits
  have hm : 0 < f.mant_bits := hf.2.2.1
  have hodd : (2 ^ f.mant_bits - 1) &&& 1 = 1 := by
    rw [Nat.and_one_is_mod]
    have h2 : 2 ^ f.mant_bits = 2 * 2 ^ (f.mant_bits - 1) := by
      conv_lhs => rw [show f.mant_bits = (f.mant_bits - 1) + 1 by omega]
      rw [pow_succ, Nat.mul_comm]
    omega
  have hzero : ToNearestTiesToEven.round_mantissa f u.mantissa u.sign = 0 := by
    have hst : (if f.has_implicit_bit = true then
        u.mantissa >>> 3 &&& (2 ^ f.mant_bits - 1) else u.mantissa >>> 3) =
        tnteCandidate f u.mantissa := rfl
    unfold ToNearestTiesToEven
    dsimp only
    rw [hst, hall]
    have hcond : 4 < u.mantissa &&& 7 ∨
        (u.mantissa &&& 7 = 4 ∧ (2 ^ f.mant_bits - 1) &&& 1 = 1) := by
      rcases Nat.lt_or_ge 4 (u.mantissa &&& 7) with h | h
      · exact Or.inl h
      · exact Or.inr ⟨by omega, hodd⟩
    rw [if_pos hcond, show 2 ^ f.mant_bits - 1 + 1 = 2 ^ f.mant_bits by omega,
        Nat.mod_self]
  refine ⟨hzero, ?_, ?_⟩
  · rw [pack_extract_mant f ToNearestTiesToEven hf hd (Or.inr rfl) u hu, hzero]
  · exact pack_extract_exp f ToNearestTiesToEven hf hd (Or.inr rfl) u hu

/-- Witness for C6: fp8_e5m2, unpacked value with exponent 3 and wide
mantissa 60 (all-ones stored bits, GRS = 4): round gives 0 and pack gives
exponent 3 back with a zero mantissa field. -/
theorem claim_C6_overflow_wraps_witness :
    ToNearestTiesToEven.round_mantissa fp8_e5m2 60 false = 0 ∧
    ((pack fp8_e5m2 ToNearestTiesToEven ⟨false, 3, 60⟩) >>> fp8_e5m2.mant_offset) &&&
        (2 ^ fp8_e5m2.mant_bits - 1) = 0 ∧
    ((pack fp8_e5m2 ToNearestTiesToEven ⟨false, 3, 60⟩) >>> fp8_e5m2.exp_offset) &&&
        (2 ^ fp8_e5m2.exp_bits - 1) = (3 : Nat) :=
  claim_C6_overflow_wraps fp8_e5m2 (by decide) (by decide) ⟨false, 3, 60⟩
    (by decide) (by decide) (by decide)



/-- C7: concrete unpack vectors on the fp8_e5m2 (1-5-2, bias 15) and
fp8_e4m3 (1-4-3, bias 7) formats, for both rounding policies; the stored
mantissa bits are read back out of the wide mantissa. -/
theorem claim_C7_vectors :
    (fp8_e5m2.sign_bits = 1 ∧ fp8_e5m2.sign_offset = 7 ∧
     fp8_e5m2.exp_bits = 5 ∧ fp8_e5m2.exp_offset = 2 ∧
     fp8_e5m2.mant_bits = 2 ∧ fp8_e5m2.mant_offset = 0 ∧
     fp8_e5m2.exp_bias = 15 ∧ fp8_e5m2.has_implicit_bit = true) ∧
    (fp8_e4m3.sign_bits = 1 ∧ fp8_e4m3.sign_offset = 7 ∧
     fp8_e4m3.exp_bits = 4 ∧ fp8_e4m3.exp_offset = 3 ∧
     fp8_e4m3.mant_bits = 3 ∧ fp8_e4m3.mant_offset = 0 ∧
     fp8_e4m3.exp_bias = 7 ∧ fp8_e4m3.has_implicit_bit = true) ∧
    ((unpack fp8_e5m2 TowardZero 0xB3).sign = true ∧
     (unpack fp8_e5m2 TowardZero 0xB3).exponent = 12 ∧
     storedBitsOf fp8_e5m2 TowardZero.guard_bits
       (unpack fp8_e5m2 TowardZero 0xB3) = 3) ∧
    ((unpack fp8_e5m2 TowardZero 0x01).sign = false ∧
     (unpack fp8_e5m2 TowardZero 0x01).exponent = 0 ∧
     storedBitsOf fp8_e5m2 TowardZero.guard_bits
       (unpack fp8_e5m2 TowardZero 0x01) = 1) ∧
    ((unpack fp8_e5m2 TowardZero 0x7C).sign = false ∧
     (unpack fp8_e5m2 TowardZero 0x7C).exponent = 31 ∧
     storedBitsOf fp8_e5m2 TowardZero.guard_bits
       (unpack fp8_e5m2 TowardZero 0x7C) = 0) ∧
    ((unpack fp8_e4m3 TowardZero 0xB5).sign = true ∧
     (unpack fp8_e4m3 TowardZero 0xB5).exponent = 6 ∧
     storedBitsOf fp8_e4m3 TowardZero.guard_bits
       (unpack fp8_e4m3 TowardZero 0xB5) = 5) ∧
    ((unpack fp8_e4m3 TowardZero 0x07).sign = false ∧
     (unpack fp8_e4m3 TowardZero 0x07).exponent = 0 ∧
     storedBitsOf fp8_e4m3 TowardZero.guard_bits
       (unpack fp8_e4m3 TowardZero 0x07) = 7) ∧
    ((unpack fp8_e5m2 ToNearestTiesToEven 0xB3).sign = true ∧
     (unpack fp8_e5m2 ToNearestTiesToEven 0xB3).exponent = 12 ∧
     storedBitsOf fp8_e5m2 ToNearestTiesToEven.guard_bits
       (unpack fp8_e5m2 ToNearestTiesToEven 0xB3) = 3) ∧
    ((unpack fp8_e5m2 ToNearestTiesToEven 0x01).sign = false ∧
     (unpack fp8_e5m2 ToNearestTiesToEven 0x01).exponent = 0 ∧
     storedBitsOf fp8_e5m2 ToNearestTiesToEven.guard_bits
       (unpack fp8_e5m2 ToNearestTiesToEven 0x01) = 1) ∧
    ((unpack fp8_e5m2 ToNearestTiesToEven 0x7C).sign = false ∧
     (unpack fp8_e5m2 ToNearestTiesToEven 0x7C).exponent = 31 ∧
     storedBitsOf fp8_e5m2 ToNearestTiesToEven.guard_bits
       (unpack fp8_e5m2 ToNearestTiesToEven 0x7C) = 0) ∧
    ((unpack fp8_e4m3 ToNearestTiesToEven 0xB5).sign = true ∧
     (unpack fp8_e4m3 ToNearestTiesToEven 0xB5).exponent = 6 ∧
     storedBitsOf fp8_e4m3 ToNearestTiesToEven.guard_bits
       (unpack fp8_e4m3 ToNearestTiesToEven 0xB5) = 5) ∧
    ((unpack fp8_e4m3 ToNearestTiesToEven 0x07).sign = false ∧
     (unpack fp8_e4m3 ToNearestTiesToEven 0x07).exponent = 0 ∧
     storedBitsOf fp8_e4m3 ToNearestTiesToEven.guard_bits
       (unpack fp8_e4m3 ToNearestTiesToEven 0x07) = 7) := by
  decide

/-- C8: the IEEE_Format generator always yields sign 1 bit at the MSB
(offset exp_bits + mant_bits), exponent at offset mant_bits, mantissa at
offset 0, total 1 + exp_bits + mant_bits, an implicit bit, the auto bias
2^(exp_bits-1) - 1, and a descriptor satisfying is_standard_layout. -/
theorem claim_C8_ieee_generator (e m : Nat) (he : 0 < e) (hm : 0 < m) :
    (IEEE_Format e m).sign_bits = 1 ∧
    (IEEE_Format e m).sign_offset = e + m ∧
    (IEEE_Format e m).exp_bits = e ∧
    (IEEE_Format e m).exp_offset = m ∧
    (IEEE_Format e m).mant_bits = m ∧
    (IEEE_Format e m).mant_offset = 0 ∧
    (IEEE_Format e m).total_bits = 1 + e + m ∧
    (IEEE_Format e m).has_implicit_bit = true ∧
    (IEEE_Format e m).exp_bias = 2 ^ (e - 1) - 1 ∧
    (IEEE_Format e m).is_standard_layout := by
  refine ⟨rfl, rfl, rfl, rfl, rfl, rfl, rfl, rfl, rfl, ?_⟩
  unfold FormatDescriptor.is_standard_layout IEEE_Format
  dsimp only
  omega

/-- Witness for C8 at the 5-exponent/2-mantissa instantiation. -/
theorem claim_C8_ieee_generator_witness :
    (IEEE_Format 5 2).sign_offset = 7 ∧
    (IEEE_Format 5 2).exp_bias = 2 ^ (5 - 1) - 1 ∧
    (IEEE_Format 5 2).is_standard_layout :=
  ⟨(claim_C8_ieee_generator 5 2 (by decide) (by decide)).2.1,
   (claim_C8_ieee_generator 5 2 (by decide) (by decide)).2.2.2.2.2.2.2.2.1,
   (claim_C8_ieee_generator 5 2 (by decide) (by decide)).2.2.2.2.2.2.2.2.2⟩

/-- C9: descriptor construction succeeds exactly when every field width is
positive, every field fits inside total_bits, and total_bits covers the sum
of the widths; any constructed descriptor satisfies all the construction
invariants. -/
theorem claim_C9_failfast (sb so eb eo mb mo tb : Int) (impl : Bool)
    (bias : Int) (d : FormatDescriptor) :
    ((mkFormatDescriptor sb so eb eo mb mo tb impl bias).isSome ↔
      (0 < sb ∧ 0 < eb ∧ 0 < mb ∧ sb + eb + mb ≤ tb ∧
       so + sb ≤ tb ∧ eo + eb ≤ tb ∧ mo + mb ≤ tb)) ∧
    (mkFormatDescriptor sb so eb eo mb mo tb impl bias = some d → d.valid) := by
  by_cases h : (0 < sb ∧ 0 < eb ∧ 0 < mb ∧ sb + eb + mb ≤ tb ∧
      so + sb ≤ tb ∧ eo + eb ≤ tb ∧ mo + mb ≤ tb)
  · constructor
    · rw [mkFormatDescriptor, if_pos h]
      simpa using h
    · intro hd
      rw [mkFormatDescriptor, if_pos h] at hd
      have hd2 := (Option.some.injEq _ _).mp hd
      subst hd2
      unfold FormatDescriptor.valid
      dsimp only
      omega
  · constructor
    · rw [mkFormatDescriptor, if_neg h]
      simpa using h
    · intro hd
      rw [mkFormatDescriptor, if_neg h] at hd
      exact absurd hd (by simp)

/-- Witness for C9: the standard 8-bit 1-5-2 geometry constructs, and the
constructed descriptor is valid. -/
theorem claim_C9_failfast_witness :
    ((mkFormatDescriptor 1 7 5 2 2 0 8 true (-1)).isSome ↔
      ((0 : Int) < 1 ∧ (0 : Int) < 5 ∧ (0 : Int) < 2 ∧
       (1 : Int) + 5 + 2 ≤ 8 ∧ (7 : Int) + 1 ≤ 8 ∧ (2 : Int) + 5 ≤ 8 ∧
       (0 : Int) + 2 ≤ 8)) ∧
    (FormatDescriptor.mk 1 7 5 2 2 0 8 true 15).valid :=
  ⟨(claim_C9_failfast 1 7 5 2 2 0 8 true (-1)
      (FormatDescriptor.mk 1 7 5 2 2 0 8 true 15)).1,
   (claim_C9_failfast 1 7 5 2 2 0 8 true (-1)
      (FormatDescriptor.mk 1 7 5 2 2 0 8 true 15)).2 (by decide)⟩

/-- C10: for every format, every rounding policy and every input pattern,
the low guard_bits bits of the unpacked mantissa are zero. -/
theorem claim_C10_guard_clean (f : FormatDescriptor) (rp : RoundingPolicy)
    (b : Nat) :
    (unpack f rp b).mantissa % 2 ^ rp.guard_bits = 0 := by
  rw [unpack_mantissa]
  apply mod_two_pow_eq_zero_of_low_false
  intro i hi
  split
  · simp only [Nat.testBit_or, Nat.testBit_shiftLeft]
    have e1 : decide (i ≥ rp.guard_bits) = false := decide_eq_false (by omega)
    have e2 : decide (i ≥ f.mant_bits + rp.guard_bits) = false :=
      decide_eq_false (by omega)
    rw [e1, e2, Bool.false_and, Bool.false_and, Bool.or_self]
  · simp only [Nat.testBit_shiftLeft]
    have e1 : decide (i ≥ rp.guard_bits) = false := decide_eq_false (by omega)
    rw [e1, Bool.false_and]


end Opine
